import Mathlib

/-!
Verification of the rustor plugin protocol and edit model.

The repository ships one source file, `examples/plugins/echo-plugin/plugin.py`,
a sample plugin that reads a JSON request from stdin and writes a JSON
response with an `edits` array.  We embed that plugin's `main` function as a
pure function on a small JSON value type, and we embed the Edit Merger that
the specification describes (the merger is not part of the shipped source;
its definitions below are modelled from the specification text, §4.4).

Text indices are codepoint indices, so source text is modelled as `List Char`
(Python strings are sequences of codepoints, and `s[i]` indexes codepoints).
-/

namespace Rustor

/-- A JSON value, as produced by Python's `json` module for the payloads this
protocol uses.  Numbers are restricted to integers, which is all the wire
protocol's `start`/`end` fields need. -/
inductive Json where
  | null : Json
  | bool (b : Bool) : Json
  | num (n : Int) : Json
  | str (s : String) : Json
  | arr (elems : List Json) : Json
  | obj (fields : List (String × Json)) : Json

/-- One proposed text change, §3 of the spec: half-open offset range into the
original source, replacement text and a human-readable message.  Offsets are
`Int` because the wire protocol carries arbitrary JSON integers; validation
(spec §4.1) is what rules out negative offsets. -/
structure Edit where
  start : Int
  «end» : Int
  replacement : String
  message : String
deriving DecidableEq, Repr

/-- Python dict lookup for a dict built by `json.load`: with duplicate keys the
last binding wins, and `dict.get` with no match falls back to a default.  This
returns the last binding for `k`, if any. -/
def lookupLast (kvs : List (String × Json)) (k : String) : Option Json :=
  kvs.reverse.lookup k

/-- The loop `while pos < len(source) and source[pos] in ' \t': pos += 1` from
`plugin.py`, with explicit fuel; each iteration advances `pos` by one, so
`advanceGo s fuel pos` with `fuel = s.length - pos` runs the loop to
completion (`advancePos` below). -/
def advanceGo (s : List Char) : Nat → Nat → Nat
  | 0, pos => pos
  | fuel + 1, pos =>
    if h : pos < s.length then
      if s.get ⟨pos, h⟩ = ' ' ∨ s.get ⟨pos, h⟩ = '\t' then advanceGo s fuel (pos + 1)
      else pos
    else pos

/-- Final value of `pos` after the whitespace-skipping loop of `plugin.py`. -/
def advancePos (s : List Char) (pos : Nat) : Nat :=
  advanceGo s (s.length - pos) pos

/-- Python's `str.split('/')` on the characters of the string: splitting on
every `'/'`, keeping empty components, so the result is always nonempty
(splitting the empty string gives `[[]]`, as Python's `''.split('/')` gives
`['']`). -/
def splitOnSlash : List Char → List (List Char)
  | [] => [[]]
  | c :: rest =>
    if c = '/' then [] :: splitOnSlash rest
    else
      match splitOnSlash rest with
      | [] => [[c]]
      | g :: gs => (c :: g) :: gs

/-- Python's `file_path.split('/')[-1]`: the component after the last slash
(`str.split` with an explicit separator always returns a nonempty list, so
index `-1` is its last element). -/
def lastComponent (p : String) : String :=
  ⟨(splitOnSlash p.data).getLastD []⟩

/-- The `edits` list built by `main` in `plugin.py`: if `source` starts with
`<?php` and does not start with `<?php\n/**`, one edit inserting a file
docblock after `<?php` and any spaces/tabs; otherwise no edits. -/
def pluginEdits (source : List Char) (file_path : String) : List Edit :=
  if "<?php".data.isPrefixOf source ∧ ¬ "<?php\n/**".data.isPrefixOf source then
    let pos := advancePos source 5
    let comment := "\n/**\n * @file " ++ lastComponent file_path ++ "\n */"
    [{ start := (pos : Int), «end» := (pos : Int), replacement := comment,
       message := "Add file docblock comment" }]
  else []

/-- The JSON object `json.dump` writes for one edit dict of `plugin.py`,
fields in insertion order: start, end, replacement, message. -/
def editToJson (e : Edit) : Json :=
  .obj [("start", .num e.start), ("end", .num e.«end»),
        ("replacement", .str e.replacement), ("message", .str e.message)]

/-- The response object `json.dump(output, sys.stdout)` writes:
an object with the single key `edits` holding the array of edits. -/
def responseJson (edits : List Edit) : Json :=
  .obj [("edits", .arr (edits.map editToJson))]

/-- The `main` function of `plugin.py` on an already-parsed JSON request.
`none` models a raised Python exception: `.get` on a non-dict raises
`AttributeError`, `source.startswith` on a non-string raises, and
`file_path.split` on a non-string raises — the latter only when the
docblock branch is actually taken, exactly as in the Python control flow. -/
def pluginMain (input : Json) : Option Json :=
  match input with
  | .obj kvs =>
    let sv := (lookupLast kvs "source").getD (.str "")
    let fv := (lookupLast kvs "file").getD (.str "")
    match sv with
    | .str source =>
      if "<?php".data.isPrefixOf source.data ∧ ¬ "<?php\n/**".data.isPrefixOf source.data then
        match fv with
        | .str file_path => some (responseJson (pluginEdits source.data file_path))
        | _ => none
      else some (responseJson [])
    | _ => none
  | _ => none

/-- Modelled from the spec: the error taxonomy of §7 that the Merger's report
uses — `InvalidEditError` (kind: offset-out-of-range or inverted-range) from
validation, `OverlapError` from conflicting ranges.  (Transport-level errors
concern process handling and are not part of the edit model.) -/
inductive EditError where
  | invalidOffsetOutOfRange : EditError
  | invalidInvertedRange : EditError
  | overlapError : EditError
deriving DecidableEq, Repr

/-- Modelled from the spec: an `AggregatedEdit` (§3) is an Edit tagged with
the identifier of the plugin that produced it, used only for reporting. -/
structure AggregatedEdit where
  edit : Edit
  origin : String
deriving DecidableEq, Repr

/-- Modelled from the spec: the Merger's output (§4.4 step 5) — the final
text plus a report of applied and rejected edits, rejections with a reason. -/
structure MergeResult where
  text : List Char
  applied : List AggregatedEdit
  rejected : List (AggregatedEdit × EditError)
deriving DecidableEq, Repr

/-- Modelled from the spec: the Edit validity check of §4.1 / §3 —
`0 <= start <= end <= length(source)`. -/
def validEdit (len : Nat) (e : Edit) : Bool :=
  0 ≤ e.start ∧ e.start ≤ e.«end» ∧ e.«end» ≤ (len : Int)

/-- Modelled from the spec: the kind of `InvalidEditError` recorded for an
edit that fails validation — inverted-range when `start > end`, otherwise
offset-out-of-range. -/
def classifyInvalid (e : Edit) : EditError :=
  if e.«end» < e.start then .invalidInvertedRange else .invalidOffsetOutOfRange

/-- Sort key order of §4.4 step 2: ascending `start`. -/
def leStart (a b : AggregatedEdit) : Prop :=
  a.edit.start ≤ b.edit.start

instance : DecidableRel leStart := fun a b => Int.decLe a.edit.start b.edit.start

instance : IsTotal AggregatedEdit leStart := ⟨fun a b => Int.le_total a.edit.start b.edit.start⟩

instance : IsTrans AggregatedEdit leStart := ⟨fun _ _ _ h1 h2 => le_trans h1 h2⟩

/-- Modelled from the spec: the cursor walk of §4.4 steps 3–4.  Walks the
sorted edits tracking the rightmost consumed offset `cursor`: an edit whose
`start` is below the cursor overlaps a previously accepted edit and is
rejected with `OverlapError`; otherwise `source[cursor:start]` and the
replacement are appended and the cursor moves to `end`.  After the last edit
the tail `source[cursor:]` is appended. -/
def mergeWalk (src : List Char) (cursor : Nat) : List AggregatedEdit → MergeResult
  | [] => ⟨src.drop cursor, [], []⟩
  | a :: rest =>
    if a.edit.start < (cursor : Int) then
      let w := mergeWalk src cursor rest
      ⟨w.text, w.applied, (a, .overlapError) :: w.rejected⟩
    else
      let w := mergeWalk src a.edit.«end».toNat rest
      ⟨(src.drop cursor).take (a.edit.start.toNat - cursor) ++ a.edit.replacement.data ++ w.text,
       a :: w.applied, w.rejected⟩

/-- Modelled from the spec: the Edit Merger of §4.4.  Validates every edit
(invalid ones are excluded and recorded as rejected), sorts the valid ones by
`start` ascending with a stable sort (declaration order breaks ties), then
walks them greedily from cursor 0. -/
def merge (src : List Char) (es : List AggregatedEdit) : MergeResult :=
  let parts := es.partition (fun a => validEdit src.length a.edit)
  let sorted := List.insertionSort leStart parts.1
  let w := mergeWalk src 0 sorted
  { text := w.text
    applied := w.applied
    rejected := parts.2.map (fun a => (a, classifyInvalid a.edit)) ++ w.rejected }

/-! ### Properties of the whitespace-advancing loop -/

theorem advanceGo_ge (s : List Char) :
    ∀ fuel pos, pos ≤ advanceGo s fuel pos := by
  intro fuel
  induction fuel with
  | zero => intro pos; simp [advanceGo]
  | succ n ih =>
    intro pos
    rw [advanceGo]
    split
    · split
      · exact le_trans (Nat.le_succ pos) (ih (pos + 1))
      · exact le_refl pos
    · exact le_refl pos

theorem advanceGo_le_length (s : List Char) :
    ∀ fuel pos, pos ≤ s.length → advanceGo s fuel pos ≤ s.length := by
  intro fuel
  induction fuel with
  | zero => intro pos h; simpa [advanceGo] using h
  | succ n ih =>
    intro pos h
    rw [advanceGo]
    split
    · rename_i hlt
      split
      · exact ih (pos + 1) hlt
      · exact h
    · exact h

theorem advanceGo_mid (s : List Char) :
    ∀ fuel pos i, pos ≤ i → i < advanceGo s fuel pos →
      ∃ h : i < s.length, s.get ⟨i, h⟩ = ' ' ∨ s.get ⟨i, h⟩ = '\t' := by
  intro fuel
  induction fuel with
  | zero => intro pos i h1 h2; rw [advanceGo] at h2; omega
  | succ n ih =>
    intro pos i h1 h2
    rw [advanceGo] at h2
    split at h2
    · rename_i hlt
      split at h2
      · rename_i hws
        rcases Nat.eq_or_lt_of_le h1 with heq | hlt2
        · subst heq
          exact ⟨hlt, hws⟩
        · exact ih (pos + 1) i hlt2 h2
      · omega
    · omega

theorem advanceGo_stop (s : List Char) :
    ∀ fuel pos, pos ≤ s.length → s.length - pos ≤ fuel →
      advanceGo s fuel pos = s.length ∨
        ∃ h : advanceGo s fuel pos < s.length,
          ¬ (s.get ⟨advanceGo s fuel pos, h⟩ = ' ' ∨
             s.get ⟨advanceGo s fuel pos, h⟩ = '\t') := by
  intro fuel
  induction fuel with
  | zero =>
    intro pos h1 h2
    left
    rw [advanceGo]
    omega
  | succ n ih =>
    intro pos h1 h2
    rw [advanceGo]
    split
    · rename_i hlt
      split
      · exact ih (pos + 1) hlt (by omega)
      · rename_i hws
        right
        exact ⟨hlt, hws⟩
    · left
      omega

theorem advancePos_ge (s : List Char) (pos : Nat) : pos ≤ advancePos s pos :=
  advanceGo_ge s (s.length - pos) pos

theorem advancePos_le_length (s : List Char) (pos : Nat) (h : pos ≤ s.length) :
    advancePos s pos ≤ s.length :=
  advanceGo_le_length s (s.length - pos) pos h

theorem advancePos_mid (s : List Char) (pos i : Nat) (h1 : pos ≤ i)
    (h2 : i < advancePos s pos) :
    ∃ h : i < s.length, s.get ⟨i, h⟩ = ' ' ∨ s.get ⟨i, h⟩ = '\t' :=
  advanceGo_mid s (s.length - pos) pos i h1 h2

theorem advancePos_stop (s : List Char) (pos : Nat) (h : pos ≤ s.length) :
    advancePos s pos = s.length ∨
      ∃ hl : advancePos s pos < s.length,
        ¬ (s.get ⟨advancePos s pos, hl⟩ = ' ' ∨ s.get ⟨advancePos s pos, hl⟩ = '\t') :=
  advanceGo_stop s (s.length - pos) pos h (le_refl _)

theorem isPrefixOf_length_le :
    ∀ l1 l2 : List Char, l1.isPrefixOf l2 = true → l1.length ≤ l2.length := by
  intro l1
  induction l1 with
  | nil => intro l2 _; simp
  | cons a t ih =>
    intro l2 h
    cases l2 with
    | nil => simp [List.isPrefixOf] at h
    | cons b t2 =>
      simp only [List.isPrefixOf, Bool.and_eq_true] at h
      simpa [Nat.succ_le_succ_iff] using ih t2 h.2

/-! ### Claims about the plugin -/

/-- Characterization of an emitted edit: the docblock branch was taken (so
`source` starts with `<?php`), and both offsets equal the loop's final
position `advancePos source 5`. -/
theorem pluginEdits_mem (s : List Char) (f : String) (e : Edit)
    (he : e ∈ pluginEdits s f) :
    "<?php".data.isPrefixOf s = true ∧
      e.start = (advancePos s 5 : Int) ∧ e.«end» = (advancePos s 5 : Int) := by
  rw [pluginEdits] at he
  split at he
  · rename_i hcond
    simp only [List.mem_singleton] at he
    subst he
    exact ⟨hcond.1, rfl, rfl⟩
  · simp at he

/-- C1: for every request whose `source` field is a string, every edit the
plugin emits satisfies the Edit invariant `0 <= start <= end <= length(source)`;
the emitted start equals end, is at least 5 (the length of `<?php`, which
source begins with whenever an edit is emitted), and the advancing loop never
moves the position past `length(source)`. -/
theorem c1_emitted_edit_invariant (s : List Char) (f : String) (e : Edit)
    (he : e ∈ pluginEdits s f) :
    0 ≤ e.start ∧ e.start ≤ e.«end» ∧ e.«end» ≤ (s.length : Int) ∧
      e.start = e.«end» ∧ (5 : Int) ≤ e.start := by
  obtain ⟨hp, hst, hen⟩ := pluginEdits_mem s f e he
  have h5 : 5 ≤ s.length := by
    simpa using isPrefixOf_length_le "<?php".data s hp
  have hge := advancePos_ge s 5
  have hle := advancePos_le_length s 5 h5
  rw [hst, hen]
  refine ⟨by omega, le_refl _, ?_, rfl, ?_⟩
  · exact_mod_cast hle
  · exact_mod_cast hge

theorem c1_witness :
    0 ≤ (Edit.mk 5 5 "\n/**\n * @file b.php\n */" "Add file docblock comment").start ∧
      (Edit.mk 5 5 "\n/**\n * @file b.php\n */" "Add file docblock comment").start ≤
        (Edit.mk 5 5 "\n/**\n * @file b.php\n */" "Add file docblock comment").«end» ∧
      (Edit.mk 5 5 "\n/**\n * @file b.php\n */" "Add file docblock comment").«end» ≤
        ("<?php\n".data.length : Int) ∧
      (Edit.mk 5 5 "\n/**\n * @file b.php\n */" "Add file docblock comment").start =
        (Edit.mk 5 5 "\n/**\n * @file b.php\n */" "Add file docblock comment").«end» ∧
      (5 : Int) ≤ (Edit.mk 5 5 "\n/**\n * @file b.php\n */" "Add file docblock comment").start :=
  c1_emitted_edit_invariant "<?php\n".data "a/b.php"
    (Edit.mk 5 5 "\n/**\n * @file b.php\n */" "Add file docblock comment") (by decide)

/-- C3: every edit the plugin emits has `start == end` — a pure insertion
under the spec's Edit semantics; the plugin never emits an edit with
`start < end`. -/
theorem c3_pure_insertion (s : List Char) (f : String) (e : Edit)
    (he : e ∈ pluginEdits s f) :
    e.start = e.«end» ∧ ¬ e.start < e.«end» := by
  obtain ⟨_, hst, hen⟩ := pluginEdits_mem s f e he
  rw [hst, hen]
  exact ⟨rfl, lt_irrefl _⟩

theorem c3_witness :
    (Edit.mk 9 9 "\n/**\n * @file x.php\n */" "Add file docblock comment").start =
        (Edit.mk 9 9 "\n/**\n * @file x.php\n */" "Add file docblock comment").«end» ∧
      ¬ (Edit.mk 9 9 "\n/**\n * @file x.php\n */" "Add file docblock comment").start <
        (Edit.mk 9 9 "\n/**\n * @file x.php\n */" "Add file docblock comment").«end» :=
  c3_pure_insertion "<?php    x".data "x.php"
    (Edit.mk 9 9 "\n/**\n * @file x.php\n */" "Add file docblock comment") (by decide)

/-- C8: the plugin emits exactly one edit if source starts with `<?php` and
does not start with `<?php\n/**`, and an empty edits list otherwise; it never
emits more than one edit in a single run. -/
theorem c8_edit_count (s : List Char) (f : String) :
    (pluginEdits s f).length =
        (if "<?php".data.isPrefixOf s ∧ ¬ "<?php\n/**".data.isPrefixOf s then 1 else 0) ∧
      (pluginEdits s f).length ≤ 1 := by
  constructor
  · rw [pluginEdits]
    split
    · simp
    · simp
  · rw [pluginEdits]
    split
    · simp
    · simp

/-- C9: whenever the plugin emits an edit, its start (and equal end) offset is
the end of the maximal run of space and tab characters beginning at index 5 of
source: every character of source in `[5, start)` is `' '` or `'\t'`, and
either `start = length(source)` or the character at `start` is neither `' '`
nor `'\t'`. -/
theorem c9_docblock_position (s : List Char) (f : String) (e : Edit)
    (he : e ∈ pluginEdits s f) :
    e.start = e.«end» ∧ (5 : Int) ≤ e.start ∧
      (∀ i : Nat, 5 ≤ i → (i : Int) < e.start →
        ∃ h : i < s.length, s.get ⟨i, h⟩ = ' ' ∨ s.get ⟨i, h⟩ = '\t') ∧
      (e.start = (s.length : Int) ∨
        ∃ h : e.start.toNat < s.length,
          ¬ (s.get ⟨e.start.toNat, h⟩ = ' ' ∨ s.get ⟨e.start.toNat, h⟩ = '\t')) := by
  obtain ⟨hp, hst, hen⟩ := pluginEdits_mem s f e he
  have h5 : 5 ≤ s.length := by
    simpa using isPrefixOf_length_le "<?php".data s hp
  rw [hst, hen]
  refine ⟨rfl, by exact_mod_cast advancePos_ge s 5, ?_, ?_⟩
  · intro i hi hlt
    exact advancePos_mid s 5 i hi (by exact_mod_cast hlt)
  · rcases advancePos_stop s 5 h5 with h | ⟨hl, hws⟩
    · left
      exact_mod_cast h
    · right
      exact ⟨by simpa using hl, by simpa using hws⟩

theorem c9_witness :
    pluginEdits "<?php\n".data "b.php" =
        [Edit.mk 5 5 "\n/**\n * @file b.php\n */" "Add file docblock comment"] ∧
      ((Edit.mk 5 5 "\n/**\n * @file b.php\n */" "Add file docblock comment").start =
          (Edit.mk 5 5 "\n/**\n * @file b.php\n */" "Add file docblock comment").«end» ∧
        (5 : Int) ≤ (Edit.mk 5 5 "\n/**\n * @file b.php\n */" "Add file docblock comment").start ∧
        (∀ i : Nat, 5 ≤ i →
          (i : Int) < (Edit.mk 5 5 "\n/**\n * @file b.php\n */" "Add file docblock comment").start →
          ∃ h : i < "<?php\n".data.length,
            "<?php\n".data.get ⟨i, h⟩ = ' ' ∨ "<?php\n".data.get ⟨i, h⟩ = '\t') ∧
        ((Edit.mk 5 5 "\n/**\n * @file b.php\n */" "Add file docblock comment").start =
            ("<?php\n".data.length : Int) ∨
          ∃ h : (Edit.mk 5 5 "\n/**\n * @file b.php\n */" "Add file docblock comment").start.toNat <
              "<?php\n".data.length,
            ¬ ("<?php\n".data.get
                  ⟨(Edit.mk 5 5 "\n/**\n * @file b.php\n */" "Add file docblock comment").start.toNat,
                    h⟩ = ' ' ∨
                "<?php\n".data.get
                  ⟨(Edit.mk 5 5 "\n/**\n * @file b.php\n */" "Add file docblock comment").start.toNat,
                    h⟩ = '\t'))) :=
  ⟨by decide,
    c9_docblock_position "<?php\n".data "b.php"
      (Edit.mk 5 5 "\n/**\n * @file b.php\n */" "Add file docblock comment") (by decide)⟩

/-- C4: the `file` field is advisory: for the same source and any two `file`
values, the plugin emits the same number of edits with identical start and end
offsets, and the `file` value influences the output only through the component
after the last `/` (the embedding is a pure function of the request, so the
path is never resolved or opened). -/
theorem c4_file_advisory (s : List Char) (f1 f2 : String) :
    (pluginEdits s f1).map (fun e => (e.start, e.«end»)) =
        (pluginEdits s f2).map (fun e => (e.start, e.«end»)) ∧
      (pluginEdits s f1).length = (pluginEdits s f2).length ∧
      (lastComponent f1 = lastComponent f2 → pluginEdits s f1 = pluginEdits s f2) := by
  rw [pluginEdits, pluginEdits]
  split
  · refine ⟨rfl, rfl, fun h => ?_⟩
    rw [h]
  · exact ⟨rfl, rfl, fun _ => rfl⟩

theorem c4_witness :
    ((pluginEdits "<?php go".data "a/x.php").map (fun e => (e.start, e.«end»)) =
        (pluginEdits "<?php go".data "b/y/x.php").map (fun e => (e.start, e.«end»))) ∧
      (pluginEdits "<?php go".data "a/x.php").length =
        (pluginEdits "<?php go".data "b/y/x.php").length ∧
      pluginEdits "<?php go".data "a/x.php" = pluginEdits "<?php go".data "b/y/x.php" :=
  ⟨(c4_file_advisory "<?php go".data "a/x.php" "b/y/x.php").1,
    (c4_file_advisory "<?php go".data "a/x.php" "b/y/x.php").2.1,
    (c4_file_advisory "<?php go".data "a/x.php" "b/y/x.php").2.2 (by decide)⟩

/-! ### Claims about the wire-level behaviour of the plugin -/

/-- When both defaulted lookups produce strings, `main` runs the edit logic
and dumps exactly one response object. -/
theorem pluginMain_obj (kvs : List (String × Json)) (s f : String)
    (hs : (lookupLast kvs "source").getD (.str "") = .str s)
    (hf : (lookupLast kvs "file").getD (.str "") = .str f) :
    pluginMain (.obj kvs) = some (responseJson (pluginEdits s.data f)) := by
  rw [pluginMain]
  rw [show ((lookupLast kvs "source").getD (.str "")) = Json.str s from hs]
  rw [show ((lookupLast kvs "file").getD (.str "")) = Json.str f from hf]
  show (if "<?php".data.isPrefixOf s.data ∧ ¬ "<?php\n/**".data.isPrefixOf s.data
        then some (responseJson (pluginEdits s.data f))
        else some (responseJson [])) = _
  split
  · rfl
  · rename_i hcond
    rw [pluginEdits, if_neg hcond]

/-- C2: for every request that is a JSON object with string `source` and
`file` fields, the plugin writes exactly one JSON object with the key `edits`
mapped to a list, every entry of which has exactly the four fields `start`
(integer), `end` (integer), `replacement` (string) and `message` (string). -/
theorem c2_response_schema (kvs : List (String × Json)) (s f : String)
    (hs : lookupLast kvs "source" = some (.str s))
    (hf : lookupLast kvs "file" = some (.str f)) :
    ∃ l : List Json,
      pluginMain (.obj kvs) = some (.obj [("edits", .arr l)]) ∧
        ∀ j ∈ l, ∃ (a b : Int) (r m : String),
          j = .obj [("start", .num a), ("end", .num b),
                    ("replacement", .str r), ("message", .str m)] := by
  refine ⟨(pluginEdits s.data f).map editToJson, ?_, ?_⟩
  · rw [pluginMain_obj kvs s f (by rw [hs]; rfl) (by rw [hf]; rfl)]
    rfl
  · intro j hj
    simp only [List.mem_map] at hj
    obtain ⟨e, _, rfl⟩ := hj
    exact ⟨e.start, e.«end», e.replacement, e.message, rfl⟩

theorem c2_witness :
    ∃ l : List Json,
      pluginMain (.obj [("source", .str "<?php"), ("file", .str "p/q.php")]) =
          some (.obj [("edits", .arr l)]) ∧
        ∀ j ∈ l, ∃ (a b : Int) (r m : String),
          j = .obj [("start", .num a), ("end", .num b),
                    ("replacement", .str r), ("message", .str m)] :=
  c2_response_schema [("source", .str "<?php"), ("file", .str "p/q.php")]
    "<?php" "p/q.php" rfl rfl

/-- C10: for every input that is a JSON object whose `source` and `file`
values, when present, are strings, the plugin terminates normally with a
well-formed response; a missing `source` or `file` key is defaulted to the
empty string, and with `source` defaulted the plugin outputs
an `edits` object holding the empty array. -/
theorem c10_defaults (kvs : List (String × Json))
    (hs : ∀ v, lookupLast kvs "source" = some v → ∃ s, v = Json.str s)
    (hf : ∀ v, lookupLast kvs "file" = some v → ∃ f, v = Json.str f) :
    (∃ out, pluginMain (.obj kvs) = some out) ∧
      (lookupLast kvs "source" = none →
        pluginMain (.obj kvs) = some (.obj [("edits", .arr [])])) := by
  obtain ⟨f, hfd⟩ : ∃ f, (lookupLast kvs "file").getD (.str "") = .str f := by
    rcases h : lookupLast kvs "file" with _ | v
    · exact ⟨"", rfl⟩
    · obtain ⟨f, rfl⟩ := hf v h
      exact ⟨f, rfl⟩
  constructor
  · obtain ⟨s, hsd⟩ : ∃ s, (lookupLast kvs "source").getD (.str "") = .str s := by
      rcases h : lookupLast kvs "source" with _ | v
      · exact ⟨"", rfl⟩
      · obtain ⟨s, rfl⟩ := hs v h
        exact ⟨s, rfl⟩
    exact ⟨_, pluginMain_obj kvs s f hsd hfd⟩
  · intro hnone
    have hsd : (lookupLast kvs "source").getD (.str "") = .str "" := by
      rw [hnone]
      rfl
    rw [pluginMain_obj kvs "" f hsd hfd]
    rfl

theorem c10_witness :
    (∃ out, pluginMain (.obj [("file", Json.str "x")]) = some out) ∧
      (lookupLast [("file", Json.str "x")] "source" = none →
        pluginMain (.obj [("file", Json.str "x")]) = some (.obj [("edits", .arr [])])) :=
  c10_defaults [("file", Json.str "x")]
    (fun _ hv => nomatch hv)
    (fun v hv => ⟨"x", by injection hv with h; exact h.symm⟩)

/-! ### Claims about the Edit Merger -/

/-- C5: on source `"abcdefghij"`, with `e1 = (0,5,"X")` and `e2 = (3,8,"Y")`,
the Merger applies `e1` (cursor moves to 5), rejects `e2` because
`e2.start (3) < cursor (5)`, and produces `"Xfghij"` with `e2` recorded in the
rejected list with `OverlapError`. -/
theorem c5_overlap_example :
    (merge "abcdefghij".data
          [⟨⟨0, 5, "X", ""⟩, "p1"⟩, ⟨⟨3, 8, "Y", ""⟩, "p2"⟩]).text = "Xfghij".data ∧
      (merge "abcdefghij".data
          [⟨⟨0, 5, "X", ""⟩, "p1"⟩, ⟨⟨3, 8, "Y", ""⟩, "p2"⟩]).applied =
        [⟨⟨0, 5, "X", ""⟩, "p1"⟩] ∧
      ((⟨⟨3, 8, "Y", ""⟩, "p2"⟩ : AggregatedEdit), EditError.overlapError) ∈
        (merge "abcdefghij".data
          [⟨⟨0, 5, "X", ""⟩, "p1"⟩, ⟨⟨3, 8, "Y", ""⟩, "p2"⟩]).rejected := by
  decide

/-- Sort key order on bare edits, used to state that sorting commutes with
forgetting the origin tag. -/
def leStartE (d e : Edit) : Prop :=
  d.start ≤ e.start

instance : DecidableRel leStartE := fun d e => Int.decLe d.start e.start

theorem map_edit_filter (p : Edit → Bool) :
    ∀ l1 l2 : List AggregatedEdit,
      l1.map AggregatedEdit.edit = l2.map AggregatedEdit.edit →
      (l1.filter fun a => p a.edit).map AggregatedEdit.edit =
        (l2.filter fun a => p a.edit).map AggregatedEdit.edit := by
  intro l1
  induction l1 with
  | nil =>
    intro l2 h
    cases l2 with
    | nil => rfl
    | cons b t2 => simp at h
  | cons a t ih =>
    intro l2 h
    cases l2 with
    | nil => simp at h
    | cons b t2 =>
      simp only [List.map_cons, List.cons.injEq] at h
      obtain ⟨hab, ht⟩ := h
      simp only [List.filter_cons, hab]
      split
      · simp only [List.map_cons, hab]
        rw [ih t2 ht]
      · exact ih t2 ht

theorem mergeWalk_map_congr (src : List Char) :
    ∀ (l1 l2 : List AggregatedEdit) (cursor : Nat),
      l1.map AggregatedEdit.edit = l2.map AggregatedEdit.edit →
      (mergeWalk src cursor l1).text = (mergeWalk src cursor l2).text ∧
        (mergeWalk src cursor l1).applied.map AggregatedEdit.edit =
          (mergeWalk src cursor l2).applied.map AggregatedEdit.edit ∧
        (mergeWalk src cursor l1).rejected.map (fun p => (p.1.edit, p.2)) =
          (mergeWalk src cursor l2).rejected.map (fun p => (p.1.edit, p.2)) := by
  intro l1
  induction l1 with
  | nil =>
    intro l2 cursor h
    cases l2 with
    | nil => exact ⟨rfl, rfl, rfl⟩
    | cons b t2 => simp at h
  | cons a t ih =>
    intro l2 cursor h
    cases l2 with
    | nil => simp at h
    | cons b t2 =>
      simp only [List.map_cons, List.cons.injEq] at h
      obtain ⟨hab, ht⟩ := h
      rw [mergeWalk, mergeWalk, hab]
      by_cases hc : b.edit.start < (cursor : Int)
      · rw [if_pos hc, if_pos hc]
        obtain ⟨h1, h2, h3⟩ := ih t2 cursor ht
        dsimp only
        refine ⟨h1, h2, ?_⟩
        simp only [List.map_cons, h3, hab]
      · rw [if_neg hc, if_neg hc]
        obtain ⟨h1, h2, h3⟩ := ih t2 b.edit.«end».toNat ht
        dsimp only
        refine ⟨?_, ?_, h3⟩
        · rw [h1]
        · simp only [List.map_cons, h2, hab]

/-- C6: the Merger is deterministic and independent of plugin identity — it is
a pure function of the aggregated sequence, and two aggregated sequences
carrying the same underlying edits (the origin tags may differ arbitrarily)
yield the same final text and reports that agree on every applied and rejected
edit and rejection reason. -/
theorem c6_merger_deterministic (src : List Char) (es1 es2 : List AggregatedEdit)
    (h : es1.map AggregatedEdit.edit = es2.map AggregatedEdit.edit) :
    (merge src es1).text = (merge src es2).text ∧
      (merge src es1).applied.map AggregatedEdit.edit =
        (merge src es2).applied.map AggregatedEdit.edit ∧
      (merge src es1).rejected.map (fun p => (p.1.edit, p.2)) =
        (merge src es2).rejected.map (fun p => (p.1.edit, p.2)) := by
  rw [merge, merge]
  simp only [List.partition_eq_filter_filter]
  have hv := map_edit_filter (fun e => validEdit src.length e) es1 es2 h
  have hinv := map_edit_filter (fun e => ! validEdit src.length e) es1 es2 h
  have hsort :
      (List.insertionSort leStart (es1.filter fun a => validEdit src.length a.edit)).map
          AggregatedEdit.edit =
        (List.insertionSort leStart (es2.filter fun a => validEdit src.length a.edit)).map
          AggregatedEdit.edit := by
    rw [List.map_insertionSort leStart leStartE AggregatedEdit.edit _
          (fun a _ b _ => Iff.rfl),
        List.map_insertionSort leStart leStartE AggregatedEdit.edit _
          (fun a _ b _ => Iff.rfl), hv]
  obtain ⟨h1, h2, h3⟩ := mergeWalk_map_congr src _ _ 0 hsort
  refine ⟨h1, h2, ?_⟩
  simp only [List.map_append, h3]
  have hcl :
      ((es1.filter fun a => ! validEdit src.length a.edit).map
          fun a => ((a, classifyInvalid a.edit) : AggregatedEdit × EditError)).map
            (fun p => (p.1.edit, p.2)) =
        ((es2.filter fun a => ! validEdit src.length a.edit).map
          fun a => ((a, classifyInvalid a.edit) : AggregatedEdit × EditError)).map
            (fun p => (p.1.edit, p.2)) := by
    simp only [List.map_map]
    show (es1.filter fun a => ! validEdit src.length a.edit).map
          ((fun e => (e, classifyInvalid e)) ∘ AggregatedEdit.edit) =
        (es2.filter fun a => ! validEdit src.length a.edit).map
          ((fun e => (e, classifyInvalid e)) ∘ AggregatedEdit.edit)
    rw [← List.map_map, ← List.map_map, hinv]
  simpa using hcl

theorem c6_witness :
    (merge "ab".data [⟨⟨1, 1, "Z", "m"⟩, "p1"⟩]).text =
        (merge "ab".data [⟨⟨1, 1, "Z", "m"⟩, "p2"⟩]).text ∧
      (merge "ab".data [⟨⟨1, 1, "Z", "m"⟩, "p1"⟩]).applied.map AggregatedEdit.edit =
        (merge "ab".data [⟨⟨1, 1, "Z", "m"⟩, "p2"⟩]).applied.map AggregatedEdit.edit ∧
      (merge "ab".data [⟨⟨1, 1, "Z", "m"⟩, "p1"⟩]).rejected.map (fun p => (p.1.edit, p.2)) =
        (merge "ab".data [⟨⟨1, 1, "Z", "m"⟩, "p2"⟩]).rejected.map (fun p => (p.1.edit, p.2)) :=
  c6_merger_deterministic "ab".data [⟨⟨1, 1, "Z", "m"⟩, "p1"⟩] [⟨⟨1, 1, "Z", "m"⟩, "p2"⟩]
    (by decide)

theorem mergeWalk_insertion_length (src : List Char) :
    ∀ (l : List AggregatedEdit) (cursor : Nat),
      cursor ≤ src.length →
      (∀ a ∈ l, a.edit.start = a.edit.«end» ∧ 0 ≤ a.edit.start ∧
        a.edit.«end» ≤ (src.length : Int)) →
      (∀ a ∈ l, (cursor : Int) ≤ a.edit.start) →
      List.Sorted leStart l →
      (mergeWalk src cursor l).text.length =
        (src.length - cursor) + (l.map fun a => a.edit.replacement.length).sum := by
  intro l
  induction l with
  | nil =>
    intro cursor hc _ _ _
    simp [mergeWalk]
  | cons a t ih =>
    intro cursor hc hval hcur hsort
    obtain ⟨hse, hs0, hel⟩ := hval a (List.mem_cons_self a t)
    have hca := hcur a (List.mem_cons_self a t)
    rw [mergeWalk, if_neg (by omega)]
    have hrec := ih a.edit.«end».toNat (by omega)
      (fun b hb => hval b (List.mem_cons_of_mem a hb))
      (fun b hb => by
        have hr := List.rel_of_sorted_cons hsort b hb
        simp only [leStart] at hr
        omega)
      hsort.of_cons
    dsimp only
    simp only [List.length_append, hrec, List.map_cons, List.sum_cons, List.length_take,
      List.length_drop]
    have hr : a.edit.replacement.data.length = a.edit.replacement.length := rfl
    omega

/-- C7: for every set of valid Edits that are all pure insertions
(`start == end` for each), applying them via the Merger yields a result whose
length is `length(source)` plus the sum of the lengths of the replacements.
(No separate no-overlap hypothesis is needed: valid pure insertions are never
rejected by the greedy walk.) -/
theorem c7_insertion_length_law (src : List Char) (es : List AggregatedEdit)
    (h : ∀ a ∈ es, a.edit.start = a.edit.«end» ∧ 0 ≤ a.edit.start ∧
      a.edit.«end» ≤ (src.length : Int)) :
    (merge src es).text.length =
      src.length + (es.map fun a => a.edit.replacement.length).sum := by
  have hval : ∀ a ∈ es, validEdit src.length a.edit = true := by
    intro a ha
    obtain ⟨h1, h2, h3⟩ := h a ha
    simp only [validEdit, decide_eq_true_eq]
    exact ⟨h2, by omega, h3⟩
  rw [merge]
  simp only [List.partition_eq_filter_filter]
  rw [List.filter_eq_self.mpr hval]
  have hperm := (List.perm_insertionSort leStart es).map
    (fun a => a.edit.replacement.length)
  have hmem : ∀ a ∈ List.insertionSort leStart es,
      a.edit.start = a.edit.«end» ∧ 0 ≤ a.edit.start ∧
        a.edit.«end» ≤ (src.length : Int) := by
    intro a ha
    exact h a ((List.mem_insertionSort leStart).mp ha)
  have hw := mergeWalk_insertion_length src (List.insertionSort leStart es) 0
    (Nat.zero_le _) hmem
    (fun a ha => by exact_mod_cast (hmem a ha).2.1)
    (List.sorted_insertionSort leStart es)
  rw [hw, hperm.sum_eq]
  omega

theorem c7_witness :
    (merge "ab".data [⟨⟨1, 1, "XY", "m"⟩, "p"⟩]).text.length =
      "ab".data.length +
        (([⟨⟨1, 1, "XY", "m"⟩, "p"⟩] : List AggregatedEdit).map
          fun a => a.edit.replacement.length).sum :=
  c7_insertion_length_law "ab".data [⟨⟨1, 1, "XY", "m"⟩, "p"⟩] (by decide)

end Rustor
